import Mathlib

/-! Verification development for the evaluation core of the hush runtime
(`src/runtime/mod.rs`): the value model, slot stack, flow signalling, panic
model, and the recursive evaluator with its two-kind call protocol.
Supporting modules that are not among the observed sources (`mem.rs`,
`value.rs`, `flow.rs`, `panic.rs`, `lib.rs`, the program tree of
`semantic::program`) are modelled from the specification; each such
definition carries a `Modelled from the spec` note.  Source positions are
modelled as plain naturals (the runtime only pairs the front-end position
with a fixed file path, see `Runtime::pos`). -/

namespace Hush

/-- Modelled from the spec: the tagged value universe (`value.rs`, spec
section 3).  `Float` is carried as an abstract 64-bit pattern (a natural);
all float operations are supplied by a `FloatModel`, so the theorems below
hold for every float semantics.  `Array`, `Dict` and `Function` are shared
handles (indices into the corresponding heaps of `RtState`). -/
inductive Value where
  | nil
  | bool (b : Bool)
  | int (i : Int)
  | float (bits : Nat)
  | byte (b : Nat)
  | str (s : List Nat)
  | array (h : Nat)
  | dict (h : Nat)
  | func (h : Nat)
deriving DecidableEq

/-- Modelled from the spec: the control-flow signal (`flow.rs`, spec
section 2 component C): Regular / Return / Break carried on the normal
return path. -/
inductive Flow where
  | regular (v : Value)
  | ret (v : Value)
  | brk
deriving DecidableEq

/-- Modelled from the spec: panic kinds (`panic.rs`, spec section 6). -/
inductive PanicKind where
  | stackOverflow
  | invalidOperand (v : Value)
  | invalidCondition (v : Value)
  | invalidCall (v : Value)
  | indexOutOfBounds (k : Value)
  | integerOverflow
  | divisionByZero
  | missingParameters
deriving DecidableEq

/-- Modelled from the spec: a panic is a kind plus the originating source
position. -/
structure Panic where
  kind : PanicKind
  pos : Nat
deriving DecidableEq

/-- Unary operators of the program tree (`program::UnaryOp`). -/
inductive UnaryOp where
  | minus
  | not
deriving DecidableEq

/-- Binary operators of the program tree (`program::BinaryOp`).  The
relational operators appear in the grammar but are unimplemented in the
evaluator (they fall into its catch-all arm). -/
inductive BinaryOp where
  | plus
  | minus
  | times
  | div
  | mod
  | equals
  | notEquals
  | greater
  | greaterEquals
  | lower
  | lowerEquals
  | and
  | or
  | concat
deriving DecidableEq

/-- A declared capture `(from_slot, to_slot)` of a function literal
(spec section 4.2). -/
structure Capture where
  fromSlot : Nat
  toSlot : Nat
deriving DecidableEq

/-- Per-function frame information: total slot count, optional self slot,
declared captures (spec section 6). -/
structure FrameInfo where
  slots : Nat
  selfSlot : Option Nat
  captures : List Capture
deriving DecidableEq

mutual
/-- Literals of the program tree (`program::Literal`). -/
inductive Literal where
  | nil
  | bool (b : Bool)
  | int (i : Int)
  | float (bits : Nat)
  | byte (b : Nat)
  | str (s : List Nat)
  | array (exprs : List Expr)
  | dict (entries : List (Nat × Expr))
  | function (params : Nat) (frameInfo : FrameInfo) (body : List Statement)
  | identifier (sym : Nat)

/-- Expressions of the program tree (`program::Expr`). -/
inductive Expr where
  | identifier (slot : Nat) (pos : Nat)
  | literal (lit : Literal) (pos : Nat)
  | unaryOp (op : UnaryOp) (operand : Expr) (pos : Nat)
  | binaryOp (left : Expr) (op : BinaryOp) (right : Expr) (pos : Nat)
  | ifE (condition : Expr) (thenB : List Statement) (elseB : List Statement) (pos : Nat)
  | access (object : Expr) (field : Expr) (pos : Nat)
  | call (function : Expr) (args : List Expr) (pos : Nat)
  | commandBlock (pos : Nat)

/-- Assignment targets (`program::Lvalue`). -/
inductive Lvalue where
  | identifier (slot : Nat) (pos : Nat)
  | access (object : Expr) (field : Expr) (pos : Nat)

/-- Statements of the program tree (`program::Statement`). -/
inductive Statement where
  | assign (left : Lvalue) (right : Expr)
  | ret (expr : Expr)
  | brk
  | whileLoop (condition : Expr) (block : List Statement)
  | forLoop (slot : Nat) (expr : Expr) (block : List Statement)
  | expr (e : Expr)
end

/-- Modelled from the spec: host-implemented callables (`lib.rs`, spec
sections 4.6 and 6).  A host function receives a view of the slot stack plus
the number of argument slots and returns a value or a panic; the behaviours
here return a constant, read an argument slot, or fault. -/
inductive HostBehavior where
  | retVal (v : Value)
  | retArg (i : Nat)
  | raise (p : Panic)
deriving DecidableEq

/-- Runtime function objects (`value::Function`): a user function
(`HushFun`: params, frame info, body, captured cells paired with target
slots, source position) or a host function (`RustFun`). -/
inductive FunObj where
  | hush (params : Nat) (frameInfo : FrameInfo) (body : List Statement)
      (context : List (Nat × Nat)) (pos : Nat)
  | rust (beh : HostBehavior)

/-- The runtime state threaded through evaluation.  Modelled from the spec
(section 3 slot stack, section 9 capture cells): slot cells are individually
allocated in `heap` and the stack holds handles (cell ids), so a capture —
a handle obtained while its frame is live — stays addressable after the
frame is shrunk, and writes through it are visible to all holders.  Slot
index `i` addresses the `i`-th cell from the top of the stack (the current
frame occupies the top `frame_info.slots` cells).  Containers and function
objects are shared handles into `arrays`, `dicts` and `funs`.  `arguments`
is the runtime-wide pending-argument buffer (`Runtime.arguments`,
mod.rs line 34). -/
structure RtState where
  heap : List Value
  stack : List Nat
  arrays : List (List Value)
  dicts : List (List (Value × Value))
  funs : List FunObj
  arguments : List (Nat × Value)

/-- Modelled from the spec: the stack's maximum depth is
implementation-defined (spec section 5); a concrete bound. -/
def maxStackSize : Nat := 4194304

/-- Modelled from the spec: `Stack::extend` pushes `n` default-initialized
cells (fresh heap cells holding `Nil`) and checks the maximum depth. -/
def RtState.extend (st : RtState) (n : Nat) : Option RtState :=
  if st.stack.length + n > maxStackSize then none
  else some { st with
    heap := st.heap ++ List.replicate n Value.nil,
    stack := (List.range n).map (fun i => st.heap.length + i) ++ st.stack }

/-- Modelled from the spec: `Stack::shrink` pops `n` cells (their heap cells
stay alive for any capture referencing them). -/
def RtState.shrink (st : RtState) (n : Nat) : RtState :=
  { st with stack := st.stack.drop n }

/-- Modelled from the spec: `Stack::fetch` reads the value of slot `i`. -/
def RtState.fetch (st : RtState) (i : Nat) : Value :=
  st.heap.getD (st.stack.getD i 0) Value.nil

/-- Modelled from the spec: `Stack::store` writes the value of slot `i`. -/
def RtState.store (st : RtState) (i : Nat) (v : Value) : RtState :=
  { st with heap := st.heap.set (st.stack.getD i 0) v }

/-- Modelled from the spec: `Stack::capture` obtains a stable handle to the
cell of slot `i`. -/
def RtState.capture (st : RtState) (i : Nat) : Nat :=
  st.stack.getD i 0

/-- Modelled from the spec: `Stack::place` places a captured cell handle
itself into slot `i` (writes through this slot see the shared cell). -/
def RtState.place (st : RtState) (i : Nat) (cell : Nat) : RtState :=
  { st with stack := st.stack.set i cell }

/-- Modelled from the spec: float semantics (`value::Float` operations) are
outside the observed sources; they are abstract operations on 64-bit
patterns, including the implementation-defined `Int`/`Float` equality. -/
structure FloatModel where
  fadd : Nat → Nat → Nat
  fsub : Nat → Nat → Nat
  fmul : Nat → Nat → Nat
  fdiv : Nat → Nat → Nat
  frem : Nat → Nat → Nat
  fneg : Nat → Nat
  ofInt : Int → Nat
  feq : Nat → Nat → Bool
  intFloatEq : Int → Nat → Bool

/-- Evaluation context: the float model and the interner's
`resolve(symbol) -> string` operation (spec section 6). -/
structure Ctx where
  fm : FloatModel
  resolve : Nat → Option (List Nat)

/-- Modelled from the spec (section 4.5): `==` is total; same-kind scalars
by value, strings byte-wise, containers and functions by handle identity,
`Int`/`Float` cross equality implementation-defined, other cross-kind pairs
unequal. -/
def valueEq (fm : FloatModel) : Value → Value → Bool
  | .nil, .nil => true
  | .bool a, .bool b => a == b
  | .int a, .int b => a == b
  | .float a, .float b => fm.feq a b
  | .int a, .float b => fm.intFloatEq a b
  | .float a, .int b => fm.intFloatEq b a
  | .byte a, .byte b => a == b
  | .str a, .str b => a == b
  | .array a, .array b => a == b
  | .dict a, .dict b => a == b
  | .func a, .func b => a == b
  | _, _ => false

/-- Modelled from the spec: `Dict::get` — lookup by the `==` equality of
keys; a missing key is an error (surfaced by callers as
`IndexOutOfBounds`). -/
def dictGet (fm : FloatModel) (d : List (Value × Value)) (k : Value) : Option Value :=
  (d.find? (fun e => valueEq fm e.1 k)).map (fun e => e.2)

/-- Modelled from the spec: `Dict::insert` — insert or overwrite by key
equality (later wins). -/
def dictInsert (fm : FloatModel) (d : List (Value × Value)) (k : Value) (v : Value) :
    List (Value × Value) :=
  if d.any (fun e => valueEq fm e.1 k) then
    d.map (fun e => if valueEq fm e.1 k then (e.1, v) else e)
  else d ++ [(k, v)]

/-- Array length as a 64-bit signed count (`Array::len`). -/
def arrLen (a : List Value) : Int := a.length

/-- Modelled from the spec (invariant I6): `Array::index` succeeds exactly
for non-negative indices strictly below the length. -/
def arrIndex (a : List Value) (ix : Int) : Option Value :=
  if 0 ≤ ix then a[ix.toNat]? else none

/-- Modelled from the spec (invariant I6): `Array::set` succeeds exactly for
non-negative indices strictly below the length. -/
def arrSet (a : List Value) (ix : Int) (v : Value) : Option (List Value) :=
  if 0 ≤ ix ∧ ix.toNat < a.length then some (a.set ix.toNat v) else none

/-- Lower bound of 64-bit signed integers. -/
def intMin : Int := -(2 ^ 63)

/-- Upper bound of 64-bit signed integers. -/
def intMax : Int := 2 ^ 63 - 1

/-- `i64::checked_add`. -/
def checkedAdd (a b : Int) : Option Int :=
  if intMin ≤ a + b ∧ a + b ≤ intMax then some (a + b) else none

/-- `i64::checked_sub`. -/
def checkedSub (a b : Int) : Option Int :=
  if intMin ≤ a - b ∧ a - b ≤ intMax then some (a - b) else none

/-- `i64::checked_mul`. -/
def checkedMul (a b : Int) : Option Int :=
  if intMin ≤ a * b ∧ a * b ≤ intMax then some (a * b) else none

/-- `i64::checked_div`: `None` on a zero divisor and on the overflowing
division `i64::MIN / -1`; otherwise truncated division. -/
def checkedDiv (a b : Int) : Option Int :=
  if b = 0 ∨ (a = intMin ∧ b = -1) then none else some (a.tdiv b)

/-- `i64::checked_rem`: `None` on a zero divisor and on `i64::MIN % -1`;
otherwise the remainder of truncated division. -/
def checkedRem (a b : Int) : Option Int :=
  if b = 0 ∨ (a = intMin ∧ b = -1) then none else some (a.tmod b)

/-- Two's-complement negation of an `i64` (`-i` in `Runtime::eval_expr`,
which wraps on `i64::MIN`; the spec leaves that corner
implementation-chosen). -/
def wrapNeg (i : Int) : Int :=
  if i = intMin then intMin else -i

/-- Whether a value is `Int` or `Float` (the `matches!` test of the
`arith_operator!` macro, mod.rs line 291). -/
def isNumeric : Value → Bool
  | .int _ => true
  | .float _ => true
  | _ => false

/-- The `arith_operator!` macro (mod.rs lines 272-300): Int/Int checked
arithmetic, Int/Float promotes the integer and applies the float operation
(note the source always passes the float as the first operand), anything
else is an `InvalidOperand` charged to the first non-numeric operand. -/
def arithOperator (fm : FloatModel) (fOp : Nat → Nat → Nat) (iOp : Int → Int → Option Int)
    (errKind : PanicKind) (lv rv : Value) (lpos rpos epos : Nat) : Except Panic Value :=
  match lv, rv with
  | .int a, .int b =>
    match iOp a b with
    | some c => .ok (.int c)
    | none => .error ⟨errKind, epos⟩
  | .int a, .float fb => .ok (.float (fOp fb (fm.ofInt a)))
  | .float fb, .int a => .ok (.float (fOp fb (fm.ofInt a)))
  | lv, rv =>
    if isNumeric lv then .error ⟨.invalidOperand rv, rpos⟩
    else .error ⟨.invalidOperand lv, lpos⟩

/-- The non-short-circuit arm of the `BinaryOp` match (mod.rs lines
302-355): arithmetic via `arithOperator`, total equality, string
concatenation, and the catch-all (relational operators, ill-typed concat)
faulting `InvalidOperand` on the left operand. -/
def binArith (fm : FloatModel) (op : BinaryOp) (lv rv : Value) (lpos rpos epos : Nat) :
    Except Panic Value :=
  match op with
  | .plus => arithOperator fm fm.fadd checkedAdd .integerOverflow lv rv lpos rpos epos
  | .minus => arithOperator fm fm.fsub checkedSub .integerOverflow lv rv lpos rpos epos
  | .times => arithOperator fm fm.fmul checkedMul .integerOverflow lv rv lpos rpos epos
  | .div => arithOperator fm fm.fdiv checkedDiv .divisionByZero lv rv lpos rpos epos
  | .mod => arithOperator fm fm.frem checkedRem .divisionByZero lv rv lpos rpos epos
  | .equals => .ok (.bool (valueEq fm lv rv))
  | .notEquals => .ok (.bool (!valueEq fm lv rv))
  | .concat =>
    match lv, rv with
    | .str s1, .str s2 => .ok (.str (s1 ++ s2))
    | lv, _ => .error ⟨.invalidOperand lv, lpos⟩
  | _ => .error ⟨.invalidOperand lv, lpos⟩

/-- Modelled from the spec: running a host callable on the stack view. -/
def runHost (beh : HostBehavior) (st : RtState) (_argc : Nat) :
    Except Panic (Value × RtState) :=
  match beh with
  | .retVal v => .ok (v, st)
  | .retArg i => .ok (st.fetch i, st)
  | .raise p => .error p

/-- The dict key `"finished"` of the `for` iteration protocol, as ASCII
bytes (mod.rs line 522). -/
def finishedBytes : List Nat := [102, 105, 110, 105, 115, 104, 101, 100]

/-- The dict key `"value"` of the `for` iteration protocol, as ASCII bytes
(mod.rs line 523). -/
def valueBytes : List Nat := [118, 97, 108, 117, 101]

/-- Result of one evaluator invocation: the flow, the reported source
position, the optional receiver (set only by `Access`), and the resulting
runtime state.  `eval_block`, `eval_statement` and `eval_literal` report a
dummy position `0` and no receiver (their Rust counterparts return only the
flow; `self` is threaded mutably). -/
structure EvalRes where
  flow : Flow
  pos : Nat
  recv : Option Value
  st : RtState

/-- Outcome of an evaluator invocation: out of fuel, an implementation-level
abort (`todo!`, `panic!("invalid flow...")`, `panic!("break outside loop")`,
unresolved symbols), a user panic carrying the runtime state at the fault,
or a normal result. -/
inductive EvalOut where
  | noFuel
  | abort
  | panic (p : Panic) (st : RtState)
  | ok (r : EvalRes)

/-- The evaluator's work items: blocks (with the accumulated last statement
value), statements, expressions, literals, the element/entry loops of array
and dict literals, the argument-staging loop of a call expression, the call
dispatcher `Runtime::call`, and the iteration loop of `for`.  The extra
`...Go` forms make the Rust-side `for`/`loop` constructs structural in the
fuel. -/
inductive EvalIn where
  | blkGo (acc : Value) (stmts : List Statement)
  | stmt (s : Statement)
  | expr (e : Expr)
  | lit (l : Literal) (pos : Nat)
  | arrayGo (acc : List Value) (rest : List Expr)
  | dictGo (acc : List (Value × Value)) (rest : List (Nat × Expr))
  | callArgs (ix : Nat) (rest : List Expr) (obj : Option Value) (fn : FunObj) (pos : Nat)
  | callF (obj : Option Value) (fn : FunObj) (pos : Nat)
  | forGo (slot : Nat) (fn : FunObj) (pos : Nat) (block : List Statement)

/-- Dereference a function handle (the `Rc` behind `Value::Function`). -/
def getFun (st : RtState) (h : Nat) : FunObj :=
  st.funs.getD h (.rust (.retVal .nil))

/-- The callee-frame setup of `Runtime::call` for a user function (mod.rs
lines 606-619): write the drained arguments into their slots, place the
captured cell handles, and, when both a receiver and a self slot are
present, store the receiver into the self slot. -/
def frameSetup (obj : Option Value) (fi : FrameInfo) (ctx : List (Nat × Nat))
    (args : List (Nat × Value)) (st1 : RtState) : RtState :=
  match obj, fi.selfSlot with
  | some o, some s =>
    ((ctx.foldl (fun acc c => acc.place c.2 c.1)
      (args.foldl (fun acc a => acc.store a.1 a.2) st1)).store s o)
  | _, _ =>
    ctx.foldl (fun acc c => acc.place c.2 c.1)
      (args.foldl (fun acc a => acc.store a.1 a.2) st1)

/-- The evaluation core of `Runtime` (mod.rs lines 79-651) as one
fuel-indexed function: `eval_block` is `blkGo`, `eval_statement` is `stmt`,
`eval_expr` is `expr`, `eval_literal` is `lit`, and `call` is `callF`
(argument staging of a call expression is `callArgs`, the `for` iteration
loop is `forGo`).  Fuel only bounds recursion depth; every Rust-side
recursion or loop step consumes one unit. -/
def evalF (C : Ctx) : Nat → EvalIn → RtState → EvalOut
  | 0, _, _ => .noFuel
  | f + 1, inp, st =>
    match inp with
    | .blkGo acc stmts =>
      match stmts with
      | [] => .ok ⟨.regular acc, 0, none, st⟩
      | s :: rest =>
        match evalF C f (.stmt s) st with
        | .ok r =>
          match r.flow with
          | .regular v => evalF C f (.blkGo v rest) r.st
          | flow => .ok ⟨flow, 0, none, r.st⟩
        | e => e
    | .stmt s =>
      match s with
      | .assign left right =>
        match evalF C f (.expr right) st with
        | .ok r =>
          match r.flow with
          | .regular v =>
            match left with
            | .identifier slot _ => .ok ⟨.regular .nil, 0, none, r.st.store slot v⟩
            | .access objE fldE lpos =>
              match evalF C f (.expr objE) r.st with
              | .ok ro =>
                match ro.flow with
                | .regular o =>
                  match evalF C f (.expr fldE) ro.st with
                  | .ok rf =>
                    match rf.flow with
                    | .regular fv =>
                      match o, fv with
                      | .dict h, fv =>
                        .ok ⟨.regular .nil, 0, none,
                          { rf.st with
                            dicts :=
                              rf.st.dicts.set h
                                (dictInsert C.fm (rf.st.dicts.getD h []) fv v) }⟩
                      | .array h, .int ix =>
                        if ix ≥ arrLen (rf.st.arrays.getD h []) then
                          .panic ⟨.indexOutOfBounds (.int ix), rf.pos⟩ rf.st
                        else
                          match arrSet (rf.st.arrays.getD h []) ix v with
                          | some a =>
                            .ok ⟨.regular .nil, 0, none,
                              { rf.st with arrays := rf.st.arrays.set h a }⟩
                          | none => .panic ⟨.indexOutOfBounds (.int ix), lpos⟩ rf.st
                      | .array _, fv => .panic ⟨.invalidOperand fv, rf.pos⟩ rf.st
                      | o, _ => .panic ⟨.invalidOperand o, ro.pos⟩ rf.st
                    | flow => .ok ⟨flow, 0, none, rf.st⟩
                  | e => e
                | flow => .ok ⟨flow, 0, none, ro.st⟩
              | e => e
          | flow => .ok ⟨flow, 0, none, r.st⟩
        | e => e
      | .ret ex =>
        match evalF C f (.expr ex) st with
        | .ok r =>
          match r.flow with
          | .regular v => .ok ⟨.ret v, 0, none, r.st⟩
          | flow => .ok ⟨flow, 0, none, r.st⟩
        | e => e
      | .brk => .ok ⟨.brk, 0, none, st⟩
      | .whileLoop cond block =>
        match evalF C f (.expr cond) st with
        | .ok r =>
          match r.flow with
          | .regular (.bool b) =>
            if b then
              match evalF C f (.blkGo .nil block) r.st with
              | .ok rb =>
                match rb.flow with
                | .regular _ => evalF C f (.stmt (.whileLoop cond block)) rb.st
                | .ret v => .ok ⟨.ret v, 0, none, rb.st⟩
                | .brk => .ok ⟨.regular .nil, 0, none, rb.st⟩
              | e => e
            else .ok ⟨.regular .nil, 0, none, r.st⟩
          | .regular v => .panic ⟨.invalidCondition v, r.pos⟩ r.st
          | flow => .ok ⟨flow, 0, none, r.st⟩
        | e => e
      | .forLoop slot ex block =>
        match evalF C f (.expr ex) st with
        | .ok r =>
          match r.flow with
          | .regular (.func h) => evalF C f (.forGo slot (getFun r.st h) r.pos block) r.st
          | .regular v => .panic ⟨.invalidOperand v, r.pos⟩ r.st
          | flow => .ok ⟨flow, 0, none, r.st⟩
        | e => e
      | .expr ex =>
        match evalF C f (.expr ex) st with
        | .ok r => .ok ⟨r.flow, 0, none, r.st⟩
        | e' => e'
    | .expr e =>
      match e with
      | .identifier slot p => .ok ⟨.regular (st.fetch slot), p, none, st⟩
      | .literal l p =>
        match evalF C f (.lit l p) st with
        | .ok r => .ok ⟨r.flow, p, none, r.st⟩
        | e' => e'
      | .unaryOp op operand p =>
        match evalF C f (.expr operand) st with
        | .ok r =>
          match r.flow with
          | .regular v =>
            match op, v with
            | .minus, .float fb => .ok ⟨.regular (.float (C.fm.fneg fb)), p, none, r.st⟩
            | .minus, .int i => .ok ⟨.regular (.int (wrapNeg i)), p, none, r.st⟩
            | .minus, v => .panic ⟨.invalidOperand v, r.pos⟩ r.st
            | .not, .bool b => .ok ⟨.regular (.bool (!b)), p, none, r.st⟩
            | .not, v => .panic ⟨.invalidOperand v, r.pos⟩ r.st
          | flow => .ok ⟨flow, p, none, r.st⟩
        | e' => e'
      | .binaryOp l op r p =>
        match evalF C f (.expr l) st with
        | .ok rl =>
          match rl.flow with
          | .regular lv =>
            if op = .and ∨ op = .or then
              match lv, op with
              | .bool false, .and => .ok ⟨.regular (.bool false), p, none, rl.st⟩
              | .bool true, .or => .ok ⟨.regular (.bool true), p, none, rl.st⟩
              | .bool _, _ =>
                match evalF C f (.expr r) rl.st with
                | .ok rr =>
                  match rr.flow with
                  | .regular (.bool b) => .ok ⟨.regular (.bool b), p, none, rr.st⟩
                  | .regular rv => .panic ⟨.invalidOperand rv, rr.pos⟩ rr.st
                  | flow => .ok ⟨flow, p, none, rr.st⟩
                | e' => e'
              | lv, _ => .panic ⟨.invalidOperand lv, rl.pos⟩ rl.st
            else
              match evalF C f (.expr r) rl.st with
              | .ok rr =>
                match rr.flow with
                | .regular rv =>
                  match binArith C.fm op lv rv rl.pos rr.pos p with
                  | .ok v => .ok ⟨.regular v, p, none, rr.st⟩
                  | .error pn => .panic pn rr.st
                | flow => .ok ⟨flow, p, none, rr.st⟩
              | e' => e'
          | flow => .ok ⟨flow, p, none, rl.st⟩
        | e' => e'
      | .ifE cond thenB elseB p =>
        match evalF C f (.expr cond) st with
        | .ok r =>
          match r.flow with
          | .regular (.bool b) =>
            match evalF C f (.blkGo .nil (if b then thenB else elseB)) r.st with
            | .ok rb => .ok ⟨rb.flow, p, none, rb.st⟩
            | e' => e'
          | .regular v => .panic ⟨.invalidCondition v, r.pos⟩ r.st
          | flow => .ok ⟨flow, p, none, r.st⟩
        | e' => e'
      | .access objE fldE p =>
        match evalF C f (.expr objE) st with
        | .ok ro =>
          match ro.flow with
          | .regular o =>
            match evalF C f (.expr fldE) ro.st with
            | .ok rf =>
              match rf.flow with
              | .regular fv =>
                match o, fv with
                | .dict h, fv =>
                  match dictGet C.fm (rf.st.dicts.getD h []) fv with
                  | some v => .ok ⟨.regular v, p, some (.dict h), rf.st⟩
                  | none => .panic ⟨.indexOutOfBounds fv, rf.pos⟩ rf.st
                | .array h, .int ix =>
                  match arrIndex (rf.st.arrays.getD h []) ix with
                  | some v => .ok ⟨.regular v, p, some (.array h), rf.st⟩
                  | none => .panic ⟨.indexOutOfBounds (.int ix), rf.pos⟩ rf.st
                | .array _, fv => .panic ⟨.invalidOperand fv, rf.pos⟩ rf.st
                | o, _ => .panic ⟨.invalidOperand o, ro.pos⟩ rf.st
              | flow => .ok ⟨flow, p, none, rf.st⟩
            | e' => e'
          | flow => .ok ⟨flow, p, none, ro.st⟩
        | e' => e'
      | .call fexpr argsE p =>
        match evalF C f (.expr fexpr) st with
        | .ok rf =>
          match rf.flow with
          | .regular (.func h) =>
            evalF C f (.callArgs 0 argsE rf.recv (getFun rf.st h) p) rf.st
          | .regular v => .panic ⟨.invalidCall v, rf.pos⟩ rf.st
          | flow => .ok ⟨flow, p, none, rf.st⟩
        | e' => e'
      | .commandBlock _ => .abort
    | .lit l p =>
      match l with
      | .nil => .ok ⟨.regular .nil, p, none, st⟩
      | .bool b => .ok ⟨.regular (.bool b), p, none, st⟩
      | .int i => .ok ⟨.regular (.int i), p, none, st⟩
      | .float fb => .ok ⟨.regular (.float fb), p, none, st⟩
      | .byte b => .ok ⟨.regular (.byte b), p, none, st⟩
      | .str s => .ok ⟨.regular (.str s), p, none, st⟩
      | .array exprs => evalF C f (.arrayGo [] exprs) st
      | .dict entries => evalF C f (.dictGo [] entries) st
      | .function params fi body =>
        .ok ⟨.regular (.func st.funs.length), p, none,
          { st with funs := st.funs ++
            [.hush params fi body
              (fi.captures.map (fun c => (st.capture c.fromSlot, c.toSlot))) p] }⟩
      | .identifier sym =>
        match C.resolve sym with
        | some s => .ok ⟨.regular (.str s), p, none, st⟩
        | none => .abort
    | .arrayGo acc rest =>
      match rest with
      | [] =>
        .ok ⟨.regular (.array st.arrays.length), 0, none,
          { st with arrays := st.arrays ++ [acc] }⟩
      | e :: rest' =>
        match evalF C f (.expr e) st with
        | .ok r =>
          match r.flow with
          | .regular v => evalF C f (.arrayGo (acc ++ [v]) rest') r.st
          | flow => .ok ⟨flow, 0, none, r.st⟩
        | e' => e'
    | .dictGo acc rest =>
      match rest with
      | [] =>
        .ok ⟨.regular (.dict st.dicts.length), 0, none,
          { st with dicts := st.dicts ++ [acc] }⟩
      | (sym, e) :: rest' =>
        match C.resolve sym with
        | none => .abort
        | some s =>
          match evalF C f (.expr e) st with
          | .ok r =>
            match r.flow with
            | .regular v => evalF C f (.dictGo (dictInsert C.fm acc (.str s) v) rest') r.st
            | flow => .ok ⟨flow, 0, none, r.st⟩
          | e' => e'
    | .callArgs ix rest obj fn pos =>
      match rest with
      | [] =>
        match evalF C f (.callF obj fn pos) st with
        | .ok rc => .ok ⟨rc.flow, pos, none, rc.st⟩
        | e' => e'
      | a :: rest' =>
        match evalF C f (.expr a) st with
        | .ok ra =>
          match ra.flow with
          | .regular v =>
            evalF C f (.callArgs (ix + 1) rest' obj fn pos)
              { ra.st with arguments := ra.st.arguments ++ [(ix, v)] }
          | flow => .ok ⟨flow, pos, none, { ra.st with arguments := [] }⟩
        | e' => e'
    | .callF obj fn pos =>
      let args := st.arguments
      let st0 : RtState := { st with arguments := [] }
      match fn with
      | .hush params fi body ctx _fpos =>
        if args.length ≠ params then .panic ⟨.missingParameters, pos⟩ st0
        else
          match st0.extend fi.slots with
          | none => .panic ⟨.stackOverflow, pos⟩ st0
          | some st1 =>
            match evalF C f (.blkGo .nil body) (frameSetup obj fi ctx args st1) with
            | .ok rb =>
              match rb.flow with
              | .regular v => .ok ⟨.regular v, pos, none, rb.st.shrink fi.slots⟩
              | .ret v => .ok ⟨.regular v, pos, none, rb.st.shrink fi.slots⟩
              | .brk => .abort
            | e' => e'
      | .rust beh =>
        match st0.extend args.length with
        | none => .panic ⟨.stackOverflow, pos⟩ st0
        | some st1 =>
          match runHost beh (args.foldl (fun acc a => acc.store a.1 a.2) st1) args.length with
          | .error p => .panic p (args.foldl (fun acc a => acc.store a.1 a.2) st1)
          | .ok (v, st2) => .ok ⟨.regular v, pos, none, st2.shrink args.length⟩
    | .forGo slot fn pos block =>
      match evalF C f (.callF none fn pos) st with
      | .ok rc =>
        match rc.flow with
        | .regular v =>
          match v with
          | .dict h =>
            match dictGet C.fm (rc.st.dicts.getD h []) (.str finishedBytes) with
            | none => .panic ⟨.indexOutOfBounds (.str finishedBytes), pos⟩ rc.st
            | some (.bool false) =>
              match dictGet C.fm (rc.st.dicts.getD h []) (.str valueBytes) with
              | none => .panic ⟨.indexOutOfBounds (.str valueBytes), pos⟩ rc.st
              | some vv =>
                match evalF C f (.blkGo .nil block) (rc.st.store slot vv) with
                | .ok rb =>
                  match rb.flow with
                  | .regular _ => evalF C f (.forGo slot fn pos block) rb.st
                  | .ret v2 => .ok ⟨.ret v2, 0, none, rb.st⟩
                  | .brk => .ok ⟨.regular .nil, 0, none, rb.st⟩
                | e' => e'
            | some (.bool true) => .ok ⟨.regular .nil, 0, none, rc.st⟩
            | some w => .panic ⟨.invalidOperand w, pos⟩ rc.st
          | other => .panic ⟨.invalidOperand other, pos⟩ rc.st
        | _ => .abort
      | e' => e'

/-- `Runtime::eval_block` (mod.rs line 81). -/
def evalBlock (C : Ctx) (fuel : Nat) (b : List Statement) (st : RtState) : EvalOut :=
  evalF C fuel (.blkGo .nil b) st

/-- `Runtime::eval_literal` (mod.rs line 100). -/
def evalLiteral (C : Ctx) (fuel : Nat) (l : Literal) (pos : Nat) (st : RtState) : EvalOut :=
  evalF C fuel (.lit l pos) st

/-- `Runtime::eval_expr` (mod.rs line 200). -/
def evalExpr (C : Ctx) (fuel : Nat) (e : Expr) (st : RtState) : EvalOut :=
  evalF C fuel (.expr e) st

/-- `Runtime::eval_statement` (mod.rs line 440). -/
def evalStatement (C : Ctx) (fuel : Nat) (s : Statement) (st : RtState) : EvalOut :=
  evalF C fuel (.stmt s) st

/-- `Runtime::call` (mod.rs line 585): the call dispatcher; the staged
arguments are expected in `st.arguments`. -/
def call (C : Ctx) (fuel : Nat) (obj : Option Value) (fn : FunObj) (pos : Nat)
    (st : RtState) : EvalOut :=
  evalF C fuel (.callF obj fn pos) st

/-- A trivial float model for concrete witnesses: the theorems themselves
are proved for every `FloatModel`. -/
def fm0 : FloatModel where
  fadd := fun a _ => a
  fsub := fun a _ => a
  fmul := fun a _ => a
  fdiv := fun a _ => a
  frem := fun a _ => a
  fneg := fun a => a
  ofInt := fun _ => 0
  feq := fun a b => a == b
  intFloatEq := fun _ _ => false

/-- A concrete context for witnesses: symbol `n` resolves to the one-byte
string `[n]`. -/
def C0 : Ctx where
  fm := fm0
  resolve := fun n => some [n]

/-- The empty runtime state. -/
def st0 : RtState where
  heap := []
  stack := []
  arrays := []
  dicts := []
  funs := []
  arguments := []

theorem store_stack (st : RtState) (i : Nat) (v : Value) :
    (st.store i v).stack = st.stack := rfl

theorem store_arguments (st : RtState) (i : Nat) (v : Value) :
    (st.store i v).arguments = st.arguments := rfl

theorem place_stack_length (st : RtState) (i c : Nat) :
    (st.place i c).stack.length = st.stack.length := by
  simp [RtState.place]

theorem place_arguments (st : RtState) (i c : Nat) :
    (st.place i c).arguments = st.arguments := rfl

theorem shrink_stack_length (st : RtState) (n : Nat) :
    (st.shrink n).stack.length = st.stack.length - n := by
  simp [RtState.shrink]

theorem shrink_arguments (st : RtState) (n : Nat) :
    (st.shrink n).arguments = st.arguments := rfl

theorem extend_some {st st' : RtState} {n : Nat} (h : st.extend n = some st') :
    st'.stack.length = st.stack.length + n ∧ st'.arguments = st.arguments := by
  unfold RtState.extend at h
  split at h
  · simp at h
  · cases h
    refine ⟨?_, rfl⟩
    simp [Nat.add_comm]

theorem foldl_store_stack (l : List (Nat × Value)) (st : RtState) :
    (l.foldl (fun acc a => acc.store a.1 a.2) st).stack = st.stack := by
  induction l generalizing st with
  | nil => rfl
  | cons a t ih => simpa [List.foldl_cons] using ih (st.store a.1 a.2)

theorem foldl_store_arguments (l : List (Nat × Value)) (st : RtState) :
    (l.foldl (fun acc a => acc.store a.1 a.2) st).arguments = st.arguments := by
  induction l generalizing st with
  | nil => rfl
  | cons a t ih => simpa [List.foldl_cons] using ih (st.store a.1 a.2)

theorem foldl_place_stack_length (l : List (Nat × Nat)) (st : RtState) :
    (l.foldl (fun acc c => acc.place c.2 c.1) st).stack.length = st.stack.length := by
  induction l generalizing st with
  | nil => rfl
  | cons a t ih =>
    simpa [List.foldl_cons, place_stack_length] using ih (st.place a.2 a.1)

theorem foldl_place_arguments (l : List (Nat × Nat)) (st : RtState) :
    (l.foldl (fun acc c => acc.place c.2 c.1) st).arguments = st.arguments := by
  induction l generalizing st with
  | nil => rfl
  | cons a t ih => simpa [List.foldl_cons] using ih (st.place a.2 a.1)

theorem runHost_ok {beh : HostBehavior} {st st' : RtState} {argc : Nat} {v : Value}
    (h : runHost beh st argc = .ok (v, st')) : st' = st := by
  cases beh <;> simp [runHost] at h <;> exact h.2.symm

theorem frameSetup_stack_length (obj : Option Value) (fi : FrameInfo)
    (ctx : List (Nat × Nat)) (args : List (Nat × Value)) (st1 : RtState) :
    (frameSetup obj fi ctx args st1).stack.length = st1.stack.length := by
  unfold frameSetup
  cases obj <;> cases fi.selfSlot <;>
    simp [store_stack, foldl_place_stack_length, foldl_store_stack]

theorem frameSetup_arguments (obj : Option Value) (fi : FrameInfo)
    (ctx : List (Nat × Nat)) (args : List (Nat × Value)) (st1 : RtState) :
    (frameSetup obj fi ctx args st1).arguments = st1.arguments := by
  unfold frameSetup
  cases obj <;> cases fi.selfSlot <;>
    simp [store_arguments, foldl_place_arguments, foldl_store_arguments]

/-- State-pair invariant for a single evaluator step: the stack depth is
preserved, and the pending-argument buffer is either untouched or empty. -/
def PostD (st st' : RtState) : Prop :=
  st'.stack.length = st.stack.length ∧
  (st'.arguments = st.arguments ∨ st'.arguments = [])

theorem PostD.rfl (st : RtState) : PostD st st := ⟨Eq.refl _, Or.inl (Eq.refl _)⟩

theorem PostD.same {st st' : RtState} (h1 : st'.stack = st.stack)
    (h2 : st'.arguments = st.arguments) : PostD st st' :=
  ⟨by rw [h1], Or.inl h2⟩

theorem PostD.trans {a b c : RtState} (h1 : PostD a b) (h2 : PostD b c) : PostD a c := by
  obtain ⟨l1, a1⟩ := h1
  obtain ⟨l2, a2⟩ := h2
  refine ⟨l2.trans l1, ?_⟩
  rcases a1 with a1 | a1 <;> rcases a2 with a2 | a2 <;> simp [a1, a2]

/-- Work items whose successful result always has an empty pending-argument
buffer: the call dispatcher drains it, and the argument-staging loop always
ends in the dispatcher or clears it. -/
def argsStrict : EvalIn → Prop
  | .callArgs _ _ _ _ _ => True
  | .callF _ _ _ => True
  | _ => False

/-- Work items whose result never carries a receiver (everything except an
`Access` expression). -/
def recvCond : EvalIn → Prop
  | .expr (.access _ _ _) => False
  | _ => True

/-- The inductive invariant of the evaluator, for successful outcomes. -/
def Post (inp : EvalIn) (st : RtState) (r : EvalRes) : Prop :=
  PostD st r.st ∧
  (argsStrict inp → r.st.arguments = []) ∧
  (recvCond inp → r.recv = none)

/-- The invariant at a given fuel. -/
def Inv (C : Ctx) (f : Nat) : Prop :=
  ∀ inp st r, evalF C f inp st = .ok r → Post inp st r

theorem inv_zero (C : Ctx) : Inv C 0 := by
  intro inp st r h
  simp [evalF] at h


theorem postd_store (st : RtState) (i : Nat) (v : Value) : PostD st (st.store i v) :=
  PostD.same (store_stack st i v) (store_arguments st i v)

theorem inv_blkGo {C : Ctx} {f : Nat} (ih : Inv C f) :
    ∀ acc stmts st r, evalF C (f + 1) (.blkGo acc stmts) st = .ok r →
      Post (.blkGo acc stmts) st r := by
  intro acc stmts st r h
  cases stmts with
  | nil =>
    simp only [evalF] at h
    cases h
    exact ⟨PostD.rfl st, fun hF => (hF : False).elim, fun _ => rfl⟩
  | cons s rest =>
    simp only [evalF] at h
    split at h
    next r1 h1 =>
      split at h
      next v hfl =>
        have P1 := ih _ _ _ h1
        have P2 := ih _ _ _ h
        exact ⟨(P1.1).trans P2.1, fun hF => (hF : False).elim, P2.2.2⟩
      next hne =>
        cases h
        have P1 := ih _ _ _ h1
        exact ⟨P1.1, fun hF => (hF : False).elim, fun _ => rfl⟩
    next e1 hne => exact ((hne r) h).elim

theorem inv_stmt {C : Ctx} {f : Nat} (ih : Inv C f) :
    ∀ s st r, evalF C (f + 1) (.stmt s) st = .ok r → Post (.stmt s) st r := by
  intro s st r h
  cases s with
  | assign left right =>
    simp only [evalF] at h
    split at h
    next r1 h1 =>
      split at h
      next v hfl =>
        split at h
        next slot lp hleft =>
          cases h
          exact ⟨(ih _ _ _ h1).1.trans (postd_store _ _ _), fun hF => (hF : False).elim,
            fun _ => rfl⟩
        next objE fldE lpos hleft =>
          split at h
          next ro h2 =>
            split at h
            next o hflo =>
              split at h
              next rf h3 =>
                split at h
                next fv hflf =>
                  have PD : PostD st rf.st :=
                    ((ih _ _ _ h1).1.trans (ih _ _ _ h2).1).trans (ih _ _ _ h3).1
                  split at h
                  next hh =>
                    cases h
                    exact ⟨PD.trans (PostD.same rfl rfl), fun hF => (hF : False).elim,
                      fun _ => rfl⟩
                  next hh ix =>
                    split at h
                    next hge => simp at h
                    next hge =>
                      split at h
                      next a hset =>
                        cases h
                        exact ⟨PD.trans (PostD.same rfl rfl), fun hF => (hF : False).elim,
                          fun _ => rfl⟩
                      next hset => simp at h
                  next hh fv2 => simp at h
                  next o2 fv2 => simp at h
                next hne =>
                  cases h
                  have PD : PostD st rf.st :=
                    ((ih _ _ _ h1).1.trans (ih _ _ _ h2).1).trans (ih _ _ _ h3).1
                  exact ⟨PD, fun hF => (hF : False).elim, fun _ => rfl⟩
              next e3 hne => exact ((hne r) h).elim
            next hne =>
              cases h
              exact ⟨(ih _ _ _ h1).1.trans (ih _ _ _ h2).1, fun hF => (hF : False).elim,
                fun _ => rfl⟩
          next e2 hne => exact ((hne r) h).elim
      next hne =>
        cases h
        exact ⟨(ih _ _ _ h1).1, fun hF => (hF : False).elim, fun _ => rfl⟩
    next e1 hne => exact ((hne r) h).elim
  | ret ex =>
    simp only [evalF] at h
    split at h
    next r1 h1 =>
      split at h
      next v hfl =>
        cases h
        exact ⟨(ih _ _ _ h1).1, fun hF => (hF : False).elim, fun _ => rfl⟩
      next hne =>
        cases h
        exact ⟨(ih _ _ _ h1).1, fun hF => (hF : False).elim, fun _ => rfl⟩
    next e1 hne => exact ((hne r) h).elim
  | brk =>
    simp only [evalF] at h
    cases h
    exact ⟨PostD.rfl st, fun hF => (hF : False).elim, fun _ => rfl⟩
  | whileLoop cond block =>
    simp only [evalF] at h
    split at h
    next r1 h1 =>
      split at h
      next b hfl =>
        split at h
        next hb =>
          split at h
          next rb h2 =>
            split at h
            next v hflb =>
              have P3 := ih _ _ _ h
              exact ⟨((ih _ _ _ h1).1.trans (ih _ _ _ h2).1).trans P3.1,
                fun hF => (hF : False).elim, P3.2.2⟩
            next v hflb =>
              cases h
              exact ⟨(ih _ _ _ h1).1.trans (ih _ _ _ h2).1, fun hF => (hF : False).elim,
                fun _ => rfl⟩
            next hflb =>
              cases h
              exact ⟨(ih _ _ _ h1).1.trans (ih _ _ _ h2).1, fun hF => (hF : False).elim,
                fun _ => rfl⟩
          next e2 hne => exact ((hne r) h).elim
        next hb =>
          cases h
          exact ⟨(ih _ _ _ h1).1, fun hF => (hF : False).elim, fun _ => rfl⟩
      next v hfl => simp at h
      next hne =>
        cases h
        exact ⟨(ih _ _ _ h1).1, fun hF => (hF : False).elim, fun _ => rfl⟩
    next e1 hne => exact ((hne r) h).elim
  | forLoop slot ex block =>
    simp only [evalF] at h
    split at h
    next r1 h1 =>
      split at h
      next hdl hfl =>
        have P2 := ih _ _ _ h
        exact ⟨(ih _ _ _ h1).1.trans P2.1, fun hF => (hF : False).elim, P2.2.2⟩
      next v hfl => simp at h
      next hne =>
        cases h
        exact ⟨(ih _ _ _ h1).1, fun hF => (hF : False).elim, fun _ => rfl⟩
    next e1 hne => exact ((hne r) h).elim
  | expr ex =>
    simp only [evalF] at h
    split at h
    next r1 h1 =>
      cases h
      exact ⟨(ih _ _ _ h1).1, fun hF => (hF : False).elim, fun _ => rfl⟩
    next e1 hne => exact ((hne r) h).elim


theorem inv_expr {C : Ctx} {f : Nat} (ih : Inv C f) :
    ∀ e st r, evalF C (f + 1) (.expr e) st = .ok r → Post (.expr e) st r := by
  intro e st r h
  cases e with
  | identifier slot p =>
    simp only [evalF] at h
    cases h
    exact ⟨PostD.rfl st, fun hF => (hF : False).elim, fun _ => rfl⟩
  | literal l p =>
    simp only [evalF] at h
    split at h
    next r1 h1 =>
      cases h
      exact ⟨(ih _ _ _ h1).1, fun hF => (hF : False).elim, fun _ => rfl⟩
    next e1 hne => exact ((hne r) h).elim
  | unaryOp op operand p =>
    simp only [evalF] at h
    split at h
    next r1 h1 =>
      split at h
      next v hfl =>
        split at h
        next fb =>
          cases h
          exact ⟨(ih _ _ _ h1).1, fun hF => (hF : False).elim, fun _ => rfl⟩
        next i =>
          cases h
          exact ⟨(ih _ _ _ h1).1, fun hF => (hF : False).elim, fun _ => rfl⟩
        next v2 => simp at h
        next b =>
          cases h
          exact ⟨(ih _ _ _ h1).1, fun hF => (hF : False).elim, fun _ => rfl⟩
        next v2 => simp at h
      next hne =>
        cases h
        exact ⟨(ih _ _ _ h1).1, fun hF => (hF : False).elim, fun _ => rfl⟩
    next e1 hne => exact ((hne r) h).elim
  | binaryOp l op rexp p =>
    simp only [evalF] at h
    split at h
    next rl h1 =>
      split at h
      next lv hfl =>
        split at h
        next hop =>
          split at h
          next =>
            cases h
            exact ⟨(ih _ _ _ h1).1, fun hF => (hF : False).elim, fun _ => rfl⟩
          next =>
            cases h
            exact ⟨(ih _ _ _ h1).1, fun hF => (hF : False).elim, fun _ => rfl⟩
          next b =>
            split at h
            next rr h2 =>
              split at h
              next bb hflr =>
                cases h
                exact ⟨(ih _ _ _ h1).1.trans (ih _ _ _ h2).1,
                  fun hF => (hF : False).elim, fun _ => rfl⟩
              next rv hflr => simp at h
              next hne =>
                cases h
                exact ⟨(ih _ _ _ h1).1.trans (ih _ _ _ h2).1,
                  fun hF => (hF : False).elim, fun _ => rfl⟩
            next e2 hne => exact ((hne r) h).elim
          next lv2 => simp at h
        next hop =>
          split at h
          next rr h2 =>
            split at h
            next rv hflr =>
              split at h
              next v hba =>
                cases h
                exact ⟨(ih _ _ _ h1).1.trans (ih _ _ _ h2).1,
                  fun hF => (hF : False).elim, fun _ => rfl⟩
              next pn hba => simp at h
            next hne =>
              cases h
              exact ⟨(ih _ _ _ h1).1.trans (ih _ _ _ h2).1,
                fun hF => (hF : False).elim, fun _ => rfl⟩
          next e2 hne => exact ((hne r) h).elim
      next hne =>
        cases h
        exact ⟨(ih _ _ _ h1).1, fun hF => (hF : False).elim, fun _ => rfl⟩
    next e1 hne => exact ((hne r) h).elim
  | ifE cond thenB elseB p =>
    simp only [evalF] at h
    split at h
    next r1 h1 =>
      split at h
      next b hfl =>
        split at h
        next rb h2 =>
          cases h
          exact ⟨(ih _ _ _ h1).1.trans (ih _ _ _ h2).1, fun hF => (hF : False).elim,
            fun _ => rfl⟩
        next e2 hne => exact ((hne r) h).elim
      next v hfl => simp at h
      next hne =>
        cases h
        exact ⟨(ih _ _ _ h1).1, fun hF => (hF : False).elim, fun _ => rfl⟩
    next e1 hne => exact ((hne r) h).elim
  | access objE fldE p =>
    simp only [evalF] at h
    split at h
    next ro h1 =>
      split at h
      next o hflo =>
        split at h
        next rf h2 =>
          split at h
          next fv hflf =>
            have PD : PostD st rf.st := (ih _ _ _ h1).1.trans (ih _ _ _ h2).1
            split at h
            next hd =>
              split at h
              next v hget =>
                cases h
                exact ⟨PD, fun hF => (hF : False).elim, fun hF => (hF : False).elim⟩
              next hget => simp at h
            next hd ix =>
              split at h
              next v hidx =>
                cases h
                exact ⟨PD, fun hF => (hF : False).elim, fun hF => (hF : False).elim⟩
              next hidx => simp at h
            next hd => simp at h
            next o2 fv2 => simp at h
          next hne =>
            cases h
            exact ⟨(ih _ _ _ h1).1.trans (ih _ _ _ h2).1, fun hF => (hF : False).elim,
              fun hF => (hF : False).elim⟩
        next e2 hne => exact ((hne r) h).elim
      next hne =>
        cases h
        exact ⟨(ih _ _ _ h1).1, fun hF => (hF : False).elim, fun hF => (hF : False).elim⟩
    next e1 hne => exact ((hne r) h).elim
  | call fexpr argsE p =>
    simp only [evalF] at h
    split at h
    next rf h1 =>
      split at h
      next hdl hfl =>
        have P2 := ih _ _ _ h
        exact ⟨(ih _ _ _ h1).1.trans P2.1, fun hF => (hF : False).elim,
          fun _ => P2.2.2 trivial⟩
      next v hfl => simp at h
      next hne =>
        cases h
        exact ⟨(ih _ _ _ h1).1, fun hF => (hF : False).elim, fun _ => rfl⟩
    next e1 hne => exact ((hne r) h).elim
  | commandBlock p =>
    simp only [evalF] at h
    simp at h


theorem inv_lit {C : Ctx} {f : Nat} (ih : Inv C f) :
    ∀ l p st r, evalF C (f + 1) (.lit l p) st = .ok r → Post (.lit l p) st r := by
  intro l p st r h
  cases l with
  | nil =>
    simp only [evalF] at h
    cases h
    exact ⟨PostD.rfl st, fun hF => (hF : False).elim, fun _ => rfl⟩
  | bool b =>
    simp only [evalF] at h
    cases h
    exact ⟨PostD.rfl st, fun hF => (hF : False).elim, fun _ => rfl⟩
  | int i =>
    simp only [evalF] at h
    cases h
    exact ⟨PostD.rfl st, fun hF => (hF : False).elim, fun _ => rfl⟩
  | float fb =>
    simp only [evalF] at h
    cases h
    exact ⟨PostD.rfl st, fun hF => (hF : False).elim, fun _ => rfl⟩
  | byte b =>
    simp only [evalF] at h
    cases h
    exact ⟨PostD.rfl st, fun hF => (hF : False).elim, fun _ => rfl⟩
  | str s =>
    simp only [evalF] at h
    cases h
    exact ⟨PostD.rfl st, fun hF => (hF : False).elim, fun _ => rfl⟩
  | array exprs =>
    simp only [evalF] at h
    have P := ih _ _ _ h
    exact ⟨P.1, fun hF => (hF : False).elim, fun _ => P.2.2 trivial⟩
  | dict entries =>
    simp only [evalF] at h
    have P := ih _ _ _ h
    exact ⟨P.1, fun hF => (hF : False).elim, fun _ => P.2.2 trivial⟩
  | function params fi body =>
    simp only [evalF] at h
    cases h
    exact ⟨PostD.same rfl rfl, fun hF => (hF : False).elim, fun _ => rfl⟩
  | identifier sym =>
    simp only [evalF] at h
    split at h
    next s hres =>
      cases h
      exact ⟨PostD.rfl st, fun hF => (hF : False).elim, fun _ => rfl⟩
    next hres => simp at h

theorem inv_arrayGo {C : Ctx} {f : Nat} (ih : Inv C f) :
    ∀ acc rest st r, evalF C (f + 1) (.arrayGo acc rest) st = .ok r →
      Post (.arrayGo acc rest) st r := by
  intro acc rest st r h
  cases rest with
  | nil =>
    simp only [evalF] at h
    cases h
    exact ⟨PostD.same rfl rfl, fun hF => (hF : False).elim, fun _ => rfl⟩
  | cons e rest' =>
    simp only [evalF] at h
    split at h
    next r1 h1 =>
      split at h
      next v hfl =>
        have P2 := ih _ _ _ h
        exact ⟨(ih _ _ _ h1).1.trans P2.1, fun hF => (hF : False).elim, fun _ => P2.2.2 trivial⟩
      next hne =>
        cases h
        exact ⟨(ih _ _ _ h1).1, fun hF => (hF : False).elim, fun _ => rfl⟩
    next e1 hne => exact ((hne r) h).elim

theorem inv_dictGo {C : Ctx} {f : Nat} (ih : Inv C f) :
    ∀ acc rest st r, evalF C (f + 1) (.dictGo acc rest) st = .ok r →
      Post (.dictGo acc rest) st r := by
  intro acc rest st r h
  cases rest with
  | nil =>
    simp only [evalF] at h
    cases h
    exact ⟨PostD.same rfl rfl, fun hF => (hF : False).elim, fun _ => rfl⟩
  | cons entry rest' =>
    obtain ⟨sym, e⟩ := entry
    simp only [evalF] at h
    split at h
    next hres => simp at h
    next s hres =>
      split at h
      next r1 h1 =>
        split at h
        next v hfl =>
          have P2 := ih _ _ _ h
          exact ⟨(ih _ _ _ h1).1.trans P2.1, fun hF => (hF : False).elim,
            fun _ => P2.2.2 trivial⟩
        next hne =>
          cases h
          exact ⟨(ih _ _ _ h1).1, fun hF => (hF : False).elim, fun _ => rfl⟩
      next e1 hne => exact ((hne r) h).elim


theorem inv_callArgs {C : Ctx} {f : Nat} (ih : Inv C f) :
    ∀ ix rest obj fn pos st r, evalF C (f + 1) (.callArgs ix rest obj fn pos) st = .ok r →
      Post (.callArgs ix rest obj fn pos) st r := by
  intro ix rest obj fn pos st r h
  cases rest with
  | nil =>
    simp only [evalF] at h
    split at h
    next rc h1 =>
      cases h
      have P := ih _ _ _ h1
      exact ⟨P.1, fun _ => P.2.1 trivial, fun _ => rfl⟩
    next e1 hne => exact ((hne r) h).elim
  | cons a rest' =>
    simp only [evalF] at h
    split at h
    next ra h1 =>
      split at h
      next v hfl =>
        have P2 := ih _ _ _ h
        have l2 : r.st.stack.length = ra.st.stack.length := P2.1.1
        have l1 : ra.st.stack.length = st.stack.length := (ih _ _ _ h1).1.1
        exact ⟨⟨l2.trans l1, Or.inr (P2.2.1 trivial)⟩, fun _ => P2.2.1 trivial,
          fun _ => P2.2.2 trivial⟩
      next hne =>
        cases h
        exact ⟨⟨(ih _ _ _ h1).1.1, Or.inr rfl⟩, fun _ => rfl, fun _ => rfl⟩
    next e1 hne => exact ((hne r) h).elim

theorem inv_callF {C : Ctx} {f : Nat} (ih : Inv C f) :
    ∀ obj fn pos st r, evalF C (f + 1) (.callF obj fn pos) st = .ok r →
      Post (.callF obj fn pos) st r := by
  intro obj fn pos st r h
  cases fn with
  | hush params fi body ctx fpos =>
    simp only [evalF] at h
    split at h
    next hargs => simp at h
    next hargs =>
      split at h
      next hext => simp at h
      next st1 hext =>
        obtain ⟨hl1, ha1⟩ := extend_some hext
        have hl1' : st1.stack.length = st.stack.length + fi.slots := hl1
        have ha1' : st1.arguments = [] := ha1
        split at h
        next rb h1 =>
          have P1 := ih _ _ _ h1
          have hrb_args : rb.st.arguments = [] := by
            rcases P1.1.2 with hx | hx
            · rw [hx, frameSetup_arguments, ha1']
            · exact hx
          have hrb_len : rb.st.stack.length = st.stack.length + fi.slots := by
            rw [P1.1.1, frameSetup_stack_length, hl1']
          split at h
          next v hfl =>
            cases h
            refine ⟨⟨?_, Or.inr ?_⟩, fun _ => ?_, fun _ => rfl⟩
            · rw [shrink_stack_length, hrb_len]; omega
            · rw [shrink_arguments, hrb_args]
            · rw [shrink_arguments, hrb_args]
          next v hfl =>
            cases h
            refine ⟨⟨?_, Or.inr ?_⟩, fun _ => ?_, fun _ => rfl⟩
            · rw [shrink_stack_length, hrb_len]; omega
            · rw [shrink_arguments, hrb_args]
            · rw [shrink_arguments, hrb_args]
          next hfl => simp at h
        next e1 hne => exact ((hne r) h).elim
  | rust beh =>
    simp only [evalF] at h
    split at h
    next hext => simp at h
    next st1 hext =>
      obtain ⟨hl1, ha1⟩ := extend_some hext
      have hl1' : st1.stack.length = st.stack.length + st.arguments.length := hl1
      have ha1' : st1.arguments = [] := ha1
      split at h
      next p2 hrun => simp at h
      next v st2 hrun =>
        cases h
        have hst2 := runHost_ok hrun
        have hlen2 : st2.stack.length = st.stack.length + st.arguments.length := by
          rw [hst2, foldl_store_stack, hl1']
        have hargs2 : st2.arguments = [] := by
          rw [hst2, foldl_store_arguments, ha1']
        refine ⟨⟨?_, Or.inr ?_⟩, fun _ => ?_, fun _ => rfl⟩
        · rw [shrink_stack_length, hlen2]; omega
        · rw [shrink_arguments, hargs2]
        · rw [shrink_arguments, hargs2]

theorem inv_forGo {C : Ctx} {f : Nat} (ih : Inv C f) :
    ∀ slot fn pos block st r, evalF C (f + 1) (.forGo slot fn pos block) st = .ok r →
      Post (.forGo slot fn pos block) st r := by
  intro slot fn pos block st r h
  simp only [evalF] at h
  split at h
  next rc h1 =>
    split at h
    next v hfl =>
      split at h
      next hd =>
        split at h
        next hget => simp at h
        next hget =>
          split at h
          next hget2 => simp at h
          next vv hget2 =>
            split at h
            next rb h2 =>
              split at h
              next v2 hflb =>
                have P3 := ih _ _ _ h
                exact ⟨(((ih _ _ _ h1).1.trans (postd_store _ _ _)).trans
                    (ih _ _ _ h2).1).trans P3.1,
                  fun hF => (hF : False).elim, P3.2.2⟩
              next v2 hflb =>
                cases h
                exact ⟨((ih _ _ _ h1).1.trans (postd_store _ _ _)).trans (ih _ _ _ h2).1,
                  fun hF => (hF : False).elim, fun _ => rfl⟩
              next hflb =>
                cases h
                exact ⟨((ih _ _ _ h1).1.trans (postd_store _ _ _)).trans (ih _ _ _ h2).1,
                  fun hF => (hF : False).elim, fun _ => rfl⟩
            next e2 hne => exact ((hne r) h).elim
        next hget =>
          cases h
          exact ⟨(ih _ _ _ h1).1, fun hF => (hF : False).elim, fun _ => rfl⟩
        next w hget => simp at h
      next v2 => simp at h
    next hne => simp at h
  next e1 hne => exact ((hne r) h).elim


theorem inv_succ {C : Ctx} {f : Nat} (ih : Inv C f) : Inv C (f + 1) := by
  intro inp st r h
  cases inp with
  | blkGo acc stmts => exact inv_blkGo ih acc stmts st r h
  | stmt s => exact inv_stmt ih s st r h
  | expr e => exact inv_expr ih e st r h
  | lit l p => exact inv_lit ih l p st r h
  | arrayGo acc rest => exact inv_arrayGo ih acc rest st r h
  | dictGo acc rest => exact inv_dictGo ih acc rest st r h
  | callArgs ix rest obj fn pos => exact inv_callArgs ih ix rest obj fn pos st r h
  | callF obj fn pos => exact inv_callF ih obj fn pos st r h
  | forGo slot fn pos block => exact inv_forGo ih slot fn pos block st r h

/-- The evaluator's successful-outcome invariant at every fuel: stack depth
is preserved, the pending-argument buffer is untouched or empty (and empty
after the dispatcher or the argument-staging loop), and only `Access`
expressions produce a receiver. -/
theorem evalF_inv (C : Ctx) : ∀ f, Inv C f := by
  intro f
  induction f with
  | zero => exact inv_zero C
  | succ f ihf => exact inv_succ ihf



/-- Characterization of the non-short-circuit `BinaryOp` path: once both
operands evaluate to Regular values, the result is `binArith` applied to
them, with faults charged as computed there. -/
theorem binaryOp_eval_nonsc (C : Ctx) (f : Nat) (l rexp : Expr) (op : BinaryOp) (p : Nat)
    (st st1 st2 : RtState) (lv rv : Value) (lp rp : Nat) (rc1 rc2 : Option Value)
    (hop : ¬(op = BinaryOp.and ∨ op = BinaryOp.or))
    (hl : evalF C f (.expr l) st = .ok ⟨.regular lv, lp, rc1, st1⟩)
    (hr : evalF C f (.expr rexp) st1 = .ok ⟨.regular rv, rp, rc2, st2⟩) :
    evalF C (f + 1) (.expr (.binaryOp l op rexp p)) st
      = match binArith C.fm op lv rv lp rp p with
        | .ok v => .ok ⟨.regular v, p, none, st2⟩
        | .error pn => .panic pn st2 := by
  simp only [evalF, hl]
  rw [if_neg hop]
  simp only [hr]



/-- Claim C1, counterexample: a zero-argument user function whose body
faults `DivisionByZero` leaves its two-slot frame on the stack when the
dispatcher propagates the fault — the depth after the call (2) differs from
the depth before it (0), so the frame is not shrunk on the failure path. -/
theorem c1_counterexample :
    evalF C0 9 (.callF none (.hush 0 ⟨2, none, []⟩
        [.expr (.binaryOp (.literal (.int 1) 1) .div (.literal (.int 0) 2) 3)] [] 0) 7) st0
      = .panic ⟨.divisionByZero, 3⟩ ⟨[.nil, .nil], [0, 1], [], [], [], []⟩ ∧
    (RtState.mk [.nil, .nil] [0, 1] [] [] [] []).stack.length ≠ st0.stack.length :=
  ⟨rfl, by decide⟩

/-- Claim C1 (amended): when the call dispatcher returns normally (with a
value), the slot-stack depth is restored to its value from before the call,
for both user and host functions; on a propagated fault the callee's frame
is not shrunk. -/
theorem c1_amended (C : Ctx) (f : Nat) (obj : Option Value) (fn : FunObj) (pos : Nat)
    (st : RtState) (r : EvalRes) (h : call C f obj fn pos st = .ok r) :
    r.st.stack.length = st.stack.length :=
  (evalF_inv C f _ st r h).1.1

/-- Witness for C1 (amended) at a concrete successful call. -/
theorem c1_amended_witness :
    (RtState.mk [Value.nil] [] [] [] [] []).stack.length = st0.stack.length :=
  c1_amended C0 9 none (.hush 0 ⟨1, none, []⟩ [.ret (.literal (.int 7) 0)] [] 0) 5 st0
    ⟨.regular (.int 7), 5, none, ⟨[.nil], [], [], [], [], []⟩⟩ rfl

/-- Claim C2 (code bug): evaluating `f(1, g(2))`, where `f` is a
two-parameter and `g` a one-parameter user function, faults
`MissingParameters` at the inner call: the pending-argument buffer is
runtime-wide, so the inner dispatch for `g` sees the outer call's staged
argument as well as its own (count 2 instead of 1). -/
theorem c2_failing_eval :
    evalF C0 20 (.expr (.call
        (.literal (.function 2 ⟨2, none, []⟩ [.ret (.literal (.int 7) 0)]) 5)
        [.literal (.int 1) 1,
         .call (.literal (.function 1 ⟨1, none, []⟩ [.ret (.literal (.int 8) 0)]) 6)
           [.literal (.int 2) 2] 3] 4)) st0
      = .panic ⟨.missingParameters, 3⟩
          ⟨[], [], [], [],
           [.hush 2 ⟨2, none, []⟩ [.ret (.literal (.int 7) 0)] [] 5,
            .hush 1 ⟨1, none, []⟩ [.ret (.literal (.int 8) 0)] [] 6], []⟩ := rfl

/-- Claim C3, counterexample: a fault raised while an inner call is staging
its arguments inside the callee body propagates through the dispatcher with
the buffer still holding the staged entry `(0, Int 1)` — the
pending-argument buffer is not empty after the dispatcher returns. -/
theorem c3_counterexample :
    evalF C0 12 (.callF none (.hush 0 ⟨0, none, []⟩
        [.expr (.call (.literal (.function 2 ⟨2, none, []⟩ []) 0)
          [.literal (.int 1) 1,
           .binaryOp (.literal (.int 1) 2) .div (.literal (.int 0) 3) 4] 5)]
        [] 0) 9) st0
      = .panic ⟨.divisionByZero, 4⟩
          ⟨[], [], [], [], [.hush 2 ⟨2, none, []⟩ [] [] 0], [(0, .int 1)]⟩ ∧
    ([((0 : Nat), Value.int 1)] : List (Nat × Value)) ≠ [] :=
  ⟨rfl, by decide⟩

/-- Claim C3 (amended): the dispatcher drains the staged arguments of its
own call before any user code runs in the callee; the buffer is empty when
the dispatcher returns a value, and on its own early panics (arity
mismatch, stack overflow on frame extension); but a fault propagated from
the callee body can leave arguments staged by an interrupted inner call in
the buffer. -/
theorem c3_amended (C : Ctx) (f : Nat) (obj : Option Value) (pos : Nat) (st : RtState) :
    (∀ fn r, call C f obj fn pos st = .ok r → r.st.arguments = []) ∧
    (∀ params fi body ctx fpos, st.arguments.length ≠ params →
      call C (f + 1) obj (.hush params fi body ctx fpos) pos st
        = .panic ⟨.missingParameters, pos⟩ { st with arguments := [] }) ∧
    (∀ params fi body ctx fpos, st.arguments.length = params →
      RtState.extend { st with arguments := [] } fi.slots = none →
      call C (f + 1) obj (.hush params fi body ctx fpos) pos st
        = .panic ⟨.stackOverflow, pos⟩ { st with arguments := [] }) := by
  refine ⟨fun fn r h => (evalF_inv C f _ st r h).2.1 trivial, ?_, ?_⟩
  · intro params fi body ctx fpos hne
    show evalF C (f + 1) (.callF obj (.hush params fi body ctx fpos) pos) st = _
    simp only [evalF]
    rw [if_pos hne]
  · intro params fi body ctx fpos heq hext
    show evalF C (f + 1) (.callF obj (.hush params fi body ctx fpos) pos) st = _
    simp only [evalF]
    rw [if_neg (not_not_intro heq), hext]

/-- Witness for C3 (amended) at a concrete arity-mismatched call. -/
theorem c3_amended_witness :
    call C0 3 none (.hush 2 ⟨2, none, []⟩ [] [] 0) 7 st0
      = .panic ⟨.missingParameters, 7⟩ { st0 with arguments := [] } :=
  (c3_amended C0 2 none 7 st0).2.1 2 ⟨2, none, []⟩ [] [] 0 (by decide)

/-- Claim C4, counterexample: the overflowing division `INT_MIN / -1` (both
operands Int) faults `DivisionByZero`, not `IntegerOverflow`, because the
evaluator maps every `checked_div` failure to `DivisionByZero`. -/
theorem c4_counterexample :
    evalF C0 5 (.expr (.binaryOp (.literal (.int (-(2 ^ 63))) 1) .div
        (.literal (.int (-1)) 2) 9)) st0
      = .panic ⟨.divisionByZero, 9⟩ st0 ∧
    PanicKind.divisionByZero ≠ PanicKind.integerOverflow :=
  ⟨rfl, by decide⟩

/-- Claim C4 (amended): for `+ - *` on two Int operands the evaluator
performs checked 64-bit signed arithmetic, faulting `IntegerOverflow` at
the whole expression's position on overflow and returning the exact result
otherwise; for `/` and `%` a zero divisor — and likewise the overflowing
`INT_MIN / -1` case — faults `DivisionByZero` at the whole expression's
position, and otherwise the truncated quotient/remainder is returned. -/
theorem c4_amended (C : Ctx) (f : Nat) (l rexp : Expr) (p : Nat) (st : RtState)
    (a b : Int) (lp rp : Nat) (rc1 rc2 : Option Value) (st1 st2 : RtState)
    (hl : evalExpr C f l st = .ok ⟨.regular (.int a), lp, rc1, st1⟩)
    (hr : evalExpr C f rexp st1 = .ok ⟨.regular (.int b), rp, rc2, st2⟩) :
    (evalExpr C (f + 1) (.binaryOp l .plus rexp p) st =
      if intMin ≤ a + b ∧ a + b ≤ intMax then .ok ⟨.regular (.int (a + b)), p, none, st2⟩
      else .panic ⟨.integerOverflow, p⟩ st2) ∧
    (evalExpr C (f + 1) (.binaryOp l .minus rexp p) st =
      if intMin ≤ a - b ∧ a - b ≤ intMax then .ok ⟨.regular (.int (a - b)), p, none, st2⟩
      else .panic ⟨.integerOverflow, p⟩ st2) ∧
    (evalExpr C (f + 1) (.binaryOp l .times rexp p) st =
      if intMin ≤ a * b ∧ a * b ≤ intMax then .ok ⟨.regular (.int (a * b)), p, none, st2⟩
      else .panic ⟨.integerOverflow, p⟩ st2) ∧
    (evalExpr C (f + 1) (.binaryOp l .div rexp p) st =
      if b = 0 ∨ (a = intMin ∧ b = -1) then .panic ⟨.divisionByZero, p⟩ st2
      else .ok ⟨.regular (.int (a.tdiv b)), p, none, st2⟩) ∧
    (evalExpr C (f + 1) (.binaryOp l .mod rexp p) st =
      if b = 0 ∨ (a = intMin ∧ b = -1) then .panic ⟨.divisionByZero, p⟩ st2
      else .ok ⟨.regular (.int (a.tmod b)), p, none, st2⟩) := by
  simp only [evalExpr] at hl hr ⊢
  refine ⟨?_, ?_, ?_, ?_, ?_⟩
  · rw [binaryOp_eval_nonsc C f l rexp .plus p st st1 st2 _ _ lp rp rc1 rc2 (by simp) hl hr]
    simp only [binArith, arithOperator, checkedAdd]
    by_cases hc : intMin ≤ a + b ∧ a + b ≤ intMax
    · rw [if_pos hc, if_pos hc]
    · rw [if_neg hc, if_neg hc]
  · rw [binaryOp_eval_nonsc C f l rexp .minus p st st1 st2 _ _ lp rp rc1 rc2 (by simp) hl hr]
    simp only [binArith, arithOperator, checkedSub]
    by_cases hc : intMin ≤ a - b ∧ a - b ≤ intMax
    · rw [if_pos hc, if_pos hc]
    · rw [if_neg hc, if_neg hc]
  · rw [binaryOp_eval_nonsc C f l rexp .times p st st1 st2 _ _ lp rp rc1 rc2 (by simp) hl hr]
    simp only [binArith, arithOperator, checkedMul]
    by_cases hc : intMin ≤ a * b ∧ a * b ≤ intMax
    · rw [if_pos hc, if_pos hc]
    · rw [if_neg hc, if_neg hc]
  · rw [binaryOp_eval_nonsc C f l rexp .div p st st1 st2 _ _ lp rp rc1 rc2 (by simp) hl hr]
    simp only [binArith, arithOperator, checkedDiv]
    by_cases hc : b = 0 ∨ (a = intMin ∧ b = -1)
    · rw [if_pos hc, if_pos hc]
    · rw [if_neg hc, if_neg hc]
  · rw [binaryOp_eval_nonsc C f l rexp .mod p st st1 st2 _ _ lp rp rc1 rc2 (by simp) hl hr]
    simp only [binArith, arithOperator, checkedRem]
    by_cases hc : b = 0 ∨ (a = intMin ∧ b = -1)
    · rw [if_pos hc, if_pos hc]
    · rw [if_neg hc, if_neg hc]

/-- Witness for C4 (amended) at `2 + 3`. -/
theorem c4_amended_witness :
    evalExpr C0 3 (.binaryOp (.literal (.int 2) 1) .plus (.literal (.int 3) 2) 9) st0
      = if intMin ≤ (2 : Int) + 3 ∧ (2 : Int) + 3 ≤ intMax
        then .ok ⟨.regular (.int (2 + 3)), 9, none, st0⟩
        else .panic ⟨.integerOverflow, 9⟩ st0 :=
  (c4_amended C0 2 (.literal (.int 2) 1) (.literal (.int 3) 2) 9 st0 2 3 1 2 none none
    st0 st0 rfl rfl).1



/-- Claim C5: And/Or evaluate the left operand first; `Bool(false)` with And
and `Bool(true)` with Or short-circuit to that Bool without evaluating the
right operand (the result does not depend on it and carries the left
operand's post-state); otherwise a non-Bool left faults `InvalidOperand` at
the left operand's position; a Bool left forces evaluation of the right
operand, whose Bool value is the result, and a non-Bool right faults
`InvalidOperand` at the right operand's position. -/
theorem c5_theorem (C : Ctx) (f : Nat) (l rexp : Expr) (p : Nat) (st : RtState) :
    (∀ lp rc1 st1, evalExpr C f l st = .ok ⟨.regular (.bool false), lp, rc1, st1⟩ →
      evalExpr C (f + 1) (.binaryOp l .and rexp p) st
        = .ok ⟨.regular (.bool false), p, none, st1⟩) ∧
    (∀ lp rc1 st1, evalExpr C f l st = .ok ⟨.regular (.bool true), lp, rc1, st1⟩ →
      evalExpr C (f + 1) (.binaryOp l .or rexp p) st
        = .ok ⟨.regular (.bool true), p, none, st1⟩) ∧
    (∀ op v lp rc1 st1, (op = BinaryOp.and ∨ op = BinaryOp.or) → (∀ bb, v ≠ .bool bb) →
      evalExpr C f l st = .ok ⟨.regular v, lp, rc1, st1⟩ →
      evalExpr C (f + 1) (.binaryOp l op rexp p) st = .panic ⟨.invalidOperand v, lp⟩ st1) ∧
    (∀ lp rc1 st1 b rp rc2 st2,
      evalExpr C f l st = .ok ⟨.regular (.bool true), lp, rc1, st1⟩ →
      evalExpr C f rexp st1 = .ok ⟨.regular (.bool b), rp, rc2, st2⟩ →
      evalExpr C (f + 1) (.binaryOp l .and rexp p) st = .ok ⟨.regular (.bool b), p, none, st2⟩) ∧
    (∀ lp rc1 st1 b rp rc2 st2,
      evalExpr C f l st = .ok ⟨.regular (.bool false), lp, rc1, st1⟩ →
      evalExpr C f rexp st1 = .ok ⟨.regular (.bool b), rp, rc2, st2⟩ →
      evalExpr C (f + 1) (.binaryOp l .or rexp p) st = .ok ⟨.regular (.bool b), p, none, st2⟩) ∧
    (∀ lp rc1 st1 w rp rc2 st2, (∀ bb, w ≠ .bool bb) →
      evalExpr C f l st = .ok ⟨.regular (.bool true), lp, rc1, st1⟩ →
      evalExpr C f rexp st1 = .ok ⟨.regular w, rp, rc2, st2⟩ →
      evalExpr C (f + 1) (.binaryOp l .and rexp p) st = .panic ⟨.invalidOperand w, rp⟩ st2) ∧
    (∀ lp rc1 st1 w rp rc2 st2, (∀ bb, w ≠ .bool bb) →
      evalExpr C f l st = .ok ⟨.regular (.bool false), lp, rc1, st1⟩ →
      evalExpr C f rexp st1 = .ok ⟨.regular w, rp, rc2, st2⟩ →
      evalExpr C (f + 1) (.binaryOp l .or rexp p) st = .panic ⟨.invalidOperand w, rp⟩ st2) := by
  simp only [evalExpr]
  refine ⟨?_, ?_, ?_, ?_, ?_, ?_, ?_⟩
  · intro lp rc1 st1 hl
    simp only [evalF, hl]
    rw [if_pos (by simp)]
  · intro lp rc1 st1 hl
    simp only [evalF, hl]
    rw [if_pos (by simp)]
  · intro op v lp rc1 st1 hop hv hl
    rcases hop with rfl | rfl <;>
      cases v <;> first
        | exact absurd rfl (hv _)
        | (simp only [evalF, hl]
           rw [if_pos (by simp)])
  · intro lp rc1 st1 b rp rc2 st2 hl hr
    simp only [evalF, hl]
    rw [if_pos (by simp)]
    simp only [hr]
  · intro lp rc1 st1 b rp rc2 st2 hl hr
    simp only [evalF, hl]
    rw [if_pos (by simp)]
    simp only [hr]
  · intro lp rc1 st1 w rp rc2 st2 hw hl hr
    cases w <;> first
      | exact absurd rfl (hw _)
      | (simp only [evalF, hl]
         rw [if_pos (by simp)]
         simp only [hr])
  · intro lp rc1 st1 w rp rc2 st2 hw hl hr
    cases w <;> first
      | exact absurd rfl (hw _)
      | (simp only [evalF, hl]
         rw [if_pos (by simp)]
         simp only [hr])

/-- Witness for C5: `false and true` short-circuits to `Bool(false)`. -/
theorem c5_witness :
    evalExpr C0 3 (.binaryOp (.literal (.bool false) 1) .and (.literal (.bool true) 2) 9) st0
      = .ok ⟨.regular (.bool false), 9, none, st0⟩ :=
  (c5_theorem C0 2 (.literal (.bool false) 1) (.literal (.bool true) 2) 9 st0).1 1 none st0 rfl

/-- Claim C6: an `if` expression or a `while` loop whose condition evaluates
with Regular flow to a non-Bool value faults `InvalidCondition` carrying
that value, at the condition's position. -/
theorem c6_theorem (C : Ctx) (f : Nat) (cond : Expr) (v : Value) (cp : Nat)
    (rc1 : Option Value) (st st1 : RtState)
    (hv : ∀ bb, v ≠ Value.bool bb)
    (hc : evalExpr C f cond st = .ok ⟨.regular v, cp, rc1, st1⟩) :
    (∀ thenB elseB p, evalExpr C (f + 1) (.ifE cond thenB elseB p) st
        = .panic ⟨.invalidCondition v, cp⟩ st1) ∧
    (∀ block, evalStatement C (f + 1) (.whileLoop cond block) st
        = .panic ⟨.invalidCondition v, cp⟩ st1) := by
  simp only [evalExpr, evalStatement] at hc ⊢
  constructor
  · intro thenB elseB p
    cases v <;> first
      | exact absurd rfl (hv _)
      | simp only [evalF, hc]
  · intro block
    cases v <;> first
      | exact absurd rfl (hv _)
      | simp only [evalF, hc]

/-- Witness for C6: an Int condition in an `if` faults `InvalidCondition`. -/
theorem c6_witness :
    evalExpr C0 3 (.ifE (.literal (.int 1) 4) [] [] 9) st0
      = .panic ⟨.invalidCondition (.int 1), 4⟩ st0 :=
  (c6_theorem C0 2 (.literal (.int 1) 4) (.int 1) 4 none st0 st0 (by simp) rfl).1 [] [] 9

/-- Claim C10: arithmetic on two Float operands is unsupported — for each of
`+ - * / %`, two operands that evaluate with Regular flow to Float values
fault `InvalidOperand` carrying the right operand's value, at the right
operand's position. -/
theorem c10_theorem (C : Ctx) (f : Nat) (l rexp : Expr) (p : Nat) (st : RtState)
    (x y : Nat) (lp rp : Nat) (rc1 rc2 : Option Value) (st1 st2 : RtState) (op : BinaryOp)
    (hop : op = BinaryOp.plus ∨ op = BinaryOp.minus ∨ op = BinaryOp.times ∨
      op = BinaryOp.div ∨ op = BinaryOp.mod)
    (hl : evalExpr C f l st = .ok ⟨.regular (.float x), lp, rc1, st1⟩)
    (hr : evalExpr C f rexp st1 = .ok ⟨.regular (.float y), rp, rc2, st2⟩) :
    evalExpr C (f + 1) (.binaryOp l op rexp p) st
      = .panic ⟨.invalidOperand (.float y), rp⟩ st2 := by
  simp only [evalExpr] at hl hr ⊢
  rcases hop with rfl | rfl | rfl | rfl | rfl <;>
    rw [binaryOp_eval_nonsc C f l rexp _ p st st1 st2 _ _ lp rp rc1 rc2 (by simp) hl hr] <;>
    rfl

/-- Witness for C10: `Float + Float` faults `InvalidOperand` on the right
operand. -/
theorem c10_witness :
    evalExpr C0 3 (.binaryOp (.literal (.float 1) 1) .plus (.literal (.float 2) 2) 9) st0
      = .panic ⟨.invalidOperand (.float 2), 2⟩ st0 :=
  c10_theorem C0 2 (.literal (.float 1) 1) (.literal (.float 2) 2) 9 st0 1 2 1 2 none none
    st0 st0 .plus (Or.inl rfl) rfl rfl



/-- Claim C7: a `for` statement evaluates its iterator expression, which
must yield a Function (else `InvalidOperand` at its position); each
iteration calls that function with zero arguments (so a nonzero-arity user
iterator faults `MissingParameters`); a non-Dict result, or a Dict whose
`"finished"` entry is not a Bool, faults `InvalidOperand`; a Dict missing
`"finished"` — or, when finished is false, missing `"value"` — faults
`IndexOutOfBounds`; finished = true ends the loop with `Regular(Nil)`;
finished = false stores the `"value"` entry into the loop's slot and runs
the body, continuing on Regular flow, ending with `Regular(Nil)` on Break,
and propagating Return. -/
theorem c7_theorem (C : Ctx) (f : Nat) :
    (∀ slot ex block st v ep rc1 st1, (∀ hh, v ≠ Value.func hh) →
      evalExpr C f ex st = .ok ⟨.regular v, ep, rc1, st1⟩ →
      evalStatement C (f + 1) (.forLoop slot ex block) st
        = .panic ⟨.invalidOperand v, ep⟩ st1) ∧
    (∀ slot ex block st hh ep rc1 st1,
      evalExpr C f ex st = .ok ⟨.regular (.func hh), ep, rc1, st1⟩ →
      evalStatement C (f + 1) (.forLoop slot ex block) st
        = evalF C f (.forGo slot (getFun st1 hh) ep block) st1) ∧
    (∀ slot block st pos params fi body ctx fpos, st.arguments = [] → params ≠ 0 →
      evalF C (f + 2) (.forGo slot (.hush params fi body ctx fpos) pos block) st
        = .panic ⟨.missingParameters, pos⟩ st) ∧
    (∀ slot fn pos block st v cp rc1 st1, (∀ hh, v ≠ Value.dict hh) →
      call C f none fn pos st = .ok ⟨.regular v, cp, rc1, st1⟩ →
      evalF C (f + 1) (.forGo slot fn pos block) st = .panic ⟨.invalidOperand v, pos⟩ st1) ∧
    (∀ slot fn pos block st hh cp rc1 st1,
      call C f none fn pos st = .ok ⟨.regular (.dict hh), cp, rc1, st1⟩ →
      dictGet C.fm (st1.dicts.getD hh []) (.str finishedBytes) = none →
      evalF C (f + 1) (.forGo slot fn pos block) st
        = .panic ⟨.indexOutOfBounds (.str finishedBytes), pos⟩ st1) ∧
    (∀ slot fn pos block st hh cp rc1 st1,
      call C f none fn pos st = .ok ⟨.regular (.dict hh), cp, rc1, st1⟩ →
      dictGet C.fm (st1.dicts.getD hh []) (.str finishedBytes) = some (.bool true) →
      evalF C (f + 1) (.forGo slot fn pos block) st = .ok ⟨.regular .nil, 0, none, st1⟩) ∧
    (∀ slot fn pos block st hh cp rc1 st1 w, (∀ bb, w ≠ Value.bool bb) →
      call C f none fn pos st = .ok ⟨.regular (.dict hh), cp, rc1, st1⟩ →
      dictGet C.fm (st1.dicts.getD hh []) (.str finishedBytes) = some w →
      evalF C (f + 1) (.forGo slot fn pos block) st = .panic ⟨.invalidOperand w, pos⟩ st1) ∧
    (∀ slot fn pos block st hh cp rc1 st1,
      call C f none fn pos st = .ok ⟨.regular (.dict hh), cp, rc1, st1⟩ →
      dictGet C.fm (st1.dicts.getD hh []) (.str finishedBytes) = some (.bool false) →
      dictGet C.fm (st1.dicts.getD hh []) (.str valueBytes) = none →
      evalF C (f + 1) (.forGo slot fn pos block) st
        = .panic ⟨.indexOutOfBounds (.str valueBytes), pos⟩ st1) ∧
    (∀ slot fn pos block st hh cp rc1 st1 vv rb,
      call C f none fn pos st = .ok ⟨.regular (.dict hh), cp, rc1, st1⟩ →
      dictGet C.fm (st1.dicts.getD hh []) (.str finishedBytes) = some (.bool false) →
      dictGet C.fm (st1.dicts.getD hh []) (.str valueBytes) = some vv →
      evalBlock C f block (st1.store slot vv) = .ok rb →
      evalF C (f + 1) (.forGo slot fn pos block) st
        = match rb.flow with
          | .regular _ => evalF C f (.forGo slot fn pos block) rb.st
          | .ret v2 => .ok ⟨.ret v2, 0, none, rb.st⟩
          | .brk => .ok ⟨.regular .nil, 0, none, rb.st⟩) := by
  refine ⟨?_, ?_, ?_, ?_, ?_, ?_, ?_, ?_, ?_⟩
  · intro slot ex block st v ep rc1 st1 hv hexp
    simp only [evalExpr] at hexp
    cases v <;> first
      | exact absurd rfl (hv _)
      | simp only [evalStatement, evalF, hexp]
  · intro slot ex block st hh ep rc1 st1 hexp
    simp only [evalExpr] at hexp
    simp only [evalStatement, evalF, hexp]
  · intro slot block st pos params fi body ctx fpos hargs hparams
    have hcall : evalF C (f + 1) (.callF none (.hush params fi body ctx fpos) pos) st
        = .panic ⟨.missingParameters, pos⟩ st := by
      simp only [evalF]
      rw [if_pos (by rw [hargs]; exact fun hzero => hparams hzero.symm)]
      have : { st with arguments := ([] : List (Nat × Value)) } = st := by
        cases st
        simp_all
      rw [this]
    show evalF C (f + 1 + 1) (.forGo slot (.hush params fi body ctx fpos) pos block) st = _
    rw [evalF, hcall]
  · intro slot fn pos block st v cp rc1 st1 hv hcall
    simp only [call] at hcall
    cases v <;> first
      | exact absurd rfl (hv _)
      | simp only [evalF, hcall]
  · intro slot fn pos block st hh cp rc1 st1 hcall hget
    simp only [call] at hcall
    simp only [evalF, hcall, hget]
  · intro slot fn pos block st hh cp rc1 st1 hcall hget
    simp only [call] at hcall
    simp only [evalF, hcall, hget]
  · intro slot fn pos block st hh cp rc1 st1 w hw hcall hget
    simp only [call] at hcall
    cases w <;> first
      | exact absurd rfl (hw _)
      | simp only [evalF, hcall, hget]
  · intro slot fn pos block st hh cp rc1 st1 hcall hget hget2
    simp only [call] at hcall
    simp only [evalF, hcall, hget, hget2]
  · intro slot fn pos block st hh cp rc1 st1 vv rb hcall hget hget2 hblk
    simp only [call] at hcall
    simp only [evalBlock] at hblk
    obtain ⟨fl, bp, brc, bst⟩ := rb
    cases fl <;> simp only [evalF, hcall, hget, hget2, hblk]

/-- Witness for C7: a host-function iterator returning a dict with
`finished = true` ends the loop with `Regular(Nil)`. -/
theorem c7_witness :
    evalF C0 4 (.forGo 0 (.rust (.retVal (.dict 0))) 3 [])
        ⟨[], [], [], [[(.str finishedBytes, .bool true)]], [], []⟩
      = .ok ⟨.regular .nil, 0, none,
          ⟨[], [], [], [[(.str finishedBytes, .bool true)]], [], []⟩⟩ :=
  (c7_theorem C0 3).2.2.2.2.2.1 0 (.rust (.retVal (.dict 0))) 3 []
    ⟨[], [], [], [[(.str finishedBytes, .bool true)]], [], []⟩ 0 3 none
    ⟨[], [], [], [[(.str finishedBytes, .bool true)]], [], []⟩ rfl rfl



/-- Claim C8: array and dict literals evaluate their element/value
expressions left-to-right, accumulating in order; the first non-Regular
flow propagates with the remaining expressions unevaluated (the result does
not depend on them) and no container is allocated (the state is exactly the
failing element's post-state); dict keys are the interner-resolved string
forms of the symbols, and inserting a duplicate key overwrites the earlier
entry, so lookup returns the last value. -/
theorem c8_theorem (C : Ctx) (f : Nat) :
    (∀ acc e rest st v vp rc1 st1,
      evalExpr C f e st = .ok ⟨.regular v, vp, rc1, st1⟩ →
      evalF C (f + 1) (.arrayGo acc (e :: rest)) st
        = evalF C f (.arrayGo (acc ++ [v]) rest) st1) ∧
    (∀ acc e rest st flow vp rc1 st1, (∀ v, flow ≠ Flow.regular v) →
      evalExpr C f e st = .ok ⟨flow, vp, rc1, st1⟩ →
      evalF C (f + 1) (.arrayGo acc (e :: rest)) st = .ok ⟨flow, 0, none, st1⟩) ∧
    (∀ acc st, evalF C (f + 1) (.arrayGo acc []) st
      = .ok ⟨.regular (.array st.arrays.length), 0, none,
          { st with arrays := st.arrays ++ [acc] }⟩) ∧
    (∀ acc sym e rest st s v vp rc1 st1,
      C.resolve sym = some s →
      evalExpr C f e st = .ok ⟨.regular v, vp, rc1, st1⟩ →
      evalF C (f + 1) (.dictGo acc ((sym, e) :: rest)) st
        = evalF C f (.dictGo (dictInsert C.fm acc (.str s) v) rest) st1) ∧
    (∀ acc sym e rest st s flow vp rc1 st1, (∀ v, flow ≠ Flow.regular v) →
      C.resolve sym = some s →
      evalExpr C f e st = .ok ⟨flow, vp, rc1, st1⟩ →
      evalF C (f + 1) (.dictGo acc ((sym, e) :: rest)) st = .ok ⟨flow, 0, none, st1⟩) ∧
    (∀ d k v, valueEq C.fm k k = true →
      dictGet C.fm (dictInsert C.fm d k v) k = some v) ∧
    (∀ acc st, evalF C (f + 1) (.dictGo acc []) st
      = .ok ⟨.regular (.dict st.dicts.length), 0, none,
          { st with dicts := st.dicts ++ [acc] }⟩) := by
  refine ⟨?_, ?_, ?_, ?_, ?_, ?_, ?_⟩
  · intro acc e rest st v vp rc1 st1 he
    simp only [evalExpr] at he
    simp only [evalF, he]
  · intro acc e rest st flow vp rc1 st1 hnf he
    simp only [evalExpr] at he
    cases flow with
    | regular v => exact absurd rfl (hnf v)
    | ret v => simp only [evalF, he]
    | brk => simp only [evalF, he]
  · intro acc st
    simp only [evalF]
  · intro acc sym e rest st s v vp rc1 st1 hres he
    simp only [evalExpr] at he
    simp only [evalF, hres, he]
  · intro acc sym e rest st s flow vp rc1 st1 hnf hres he
    simp only [evalExpr] at he
    cases flow with
    | regular v => exact absurd rfl (hnf v)
    | ret v => simp only [evalF, hres, he]
    | brk => simp only [evalF, hres, he]
  · intro d k v hk
    induction d with
    | nil => simp [dictInsert, dictGet, hk]
    | cons entry t iht =>
      by_cases he : valueEq C.fm entry.1 k
      · simp [dictInsert, dictGet, he, hk]
      · by_cases ht : t.any (fun x => valueEq C.fm x.1 k)
        · simp only [dictInsert, dictGet, List.any_cons, he, ht] at iht ⊢
          simp [List.find?_cons, he] at iht ⊢
          exact iht
        · simp only [dictInsert, dictGet, List.any_cons, he, ht] at iht ⊢
          simp [List.find?_cons, he] at iht ⊢
          exact iht
  · intro acc st
    simp only [evalF]



/-- Witness for C8: one dict-literal entry with symbol 5 resolves to the
string key `[5]` and steps to the inserted accumulator. -/
theorem c8_witness :
    evalF C0 3 (.dictGo [] [(5, .literal (.int 1) 1)]) st0
      = evalF C0 2 (.dictGo (dictInsert C0.fm [] (.str [5]) (.int 1)) []) st0 :=
  (c8_theorem C0 2).2.2.2.1 [] 5 (.literal (.int 1) 1) [] st0 [5] (.int 1) 1 none st0 rfl rfl

/-- Claim C9: a successful `Access` — dict field lookup or array indexing
alike — carries the accessed object along as the receiver of the produced
triple; a call whose callee expression produced a receiver forwards that
receiver into the dispatcher; for every user function whose
`frame_info.self_slot` is set, the dispatcher's frame setup ends by storing
the receiver into that self slot of the new frame, and the body is
evaluated from exactly that state (with `fetch` of a just-stored live slot
reading the receiver back, and a concrete self-reading callee returning an
arbitrary receiver end to end); and every expression other than `Access`
produces no receiver. -/
theorem c9_theorem (C : Ctx) (f : Nat) :
    (∀ objE fldE p st hh fv op2 fp rc1 rc2 st1 st2 v,
      evalExpr C f objE st = .ok ⟨.regular (.dict hh), op2, rc1, st1⟩ →
      evalExpr C f fldE st1 = .ok ⟨.regular fv, fp, rc2, st2⟩ →
      dictGet C.fm (st2.dicts.getD hh []) fv = some v →
      evalExpr C (f + 1) (.access objE fldE p) st
        = .ok ⟨.regular v, p, some (.dict hh), st2⟩) ∧
    (∀ fexpr argsE p st hh fp rc st1,
      evalExpr C f fexpr st = .ok ⟨.regular (.func hh), fp, rc, st1⟩ →
      evalExpr C (f + 1) (.call fexpr argsE p) st
        = evalF C f (.callArgs 0 argsE rc (getFun st1 hh) p) st1) ∧
    (∀ o pos,
      call C 4 (some o) (.hush 0 ⟨1, some 0, []⟩ [.ret (.identifier 0 0)] [] 0) pos st0
        = .ok ⟨.regular o, pos, none, ⟨[o], [], [], [], [], []⟩⟩) ∧
    (∀ e g st r, (∀ objE fldE ap, e ≠ Expr.access objE fldE ap) →
      evalF C g (.expr e) st = .ok r → r.recv = none) ∧
    (∀ objE fldE p st hh ix op2 fp rc1 rc2 st1 st2 v,
      evalExpr C f objE st = .ok ⟨.regular (.array hh), op2, rc1, st1⟩ →
      evalExpr C f fldE st1 = .ok ⟨.regular (.int ix), fp, rc2, st2⟩ →
      arrIndex (st2.arrays.getD hh []) ix = some v →
      evalExpr C (f + 1) (.access objE fldE p) st
        = .ok ⟨.regular v, p, some (.array hh), st2⟩) ∧
    (∀ o pos st params fi body ctx fpos s st1,
      fi.selfSlot = some s →
      st.arguments.length = params →
      RtState.extend { st with arguments := [] } fi.slots = some st1 →
      call C (f + 1) (some o) (.hush params fi body ctx fpos) pos st
        = match evalF C f (.blkGo .nil body)
            ((ctx.foldl (fun acc c => acc.place c.2 c.1)
              (st.arguments.foldl (fun acc a => acc.store a.1 a.2) st1)).store s o) with
          | .ok rb =>
            match rb.flow with
            | .regular v => .ok ⟨.regular v, pos, none, rb.st.shrink fi.slots⟩
            | .ret v => .ok ⟨.regular v, pos, none, rb.st.shrink fi.slots⟩
            | .brk => .abort
          | e' => e') ∧
    (∀ (X : RtState) (s : Nat) (o : Value), X.stack.getD s 0 < X.heap.length →
      RtState.fetch (X.store s o) s = o) := by
  refine ⟨?_, ?_, ?_, ?_, ?_, ?_, ?_⟩
  · intro objE fldE p st hh fv op2 fp rc1 rc2 st1 st2 v ho hf hget
    simp only [evalExpr] at ho hf ⊢
    simp only [evalF, ho, hf, hget]
  · intro fexpr argsE p st hh fp rc st1 hfe
    simp only [evalExpr] at hfe ⊢
    simp only [evalF, hfe]
  · intro o pos
    rfl
  · intro e g st r hne h
    cases e with
    | access objE fldE ap => exact absurd rfl (hne _ _ _)
    | identifier slot p => exact (evalF_inv C g _ st r h).2.2 trivial
    | literal l p => exact (evalF_inv C g _ st r h).2.2 trivial
    | unaryOp op operand p => exact (evalF_inv C g _ st r h).2.2 trivial
    | binaryOp l op rexp p => exact (evalF_inv C g _ st r h).2.2 trivial
    | ifE cond thenB elseB p => exact (evalF_inv C g _ st r h).2.2 trivial
    | call fexpr argsE p => exact (evalF_inv C g _ st r h).2.2 trivial
    | commandBlock p => exact (evalF_inv C g _ st r h).2.2 trivial
  · intro objE fldE p st hh ix op2 fp rc1 rc2 st1 st2 v ho hf hidx
    simp only [evalExpr] at ho hf ⊢
    simp only [evalF, ho, hf, hidx]
  · intro o pos st params fi body ctx fpos s st1 hss hparams hext
    show evalF C (f + 1) (.callF (some o) (.hush params fi body ctx fpos) pos) st = _
    simp only [evalF]
    rw [if_neg (not_not_intro hparams), hext]
    simp only [frameSetup, hss]
  · intro X s o hb
    show (X.heap.set (X.stack.getD s 0) o).getD (X.stack.getD s 0) Value.nil = o
    rw [List.getD_eq_getElem?_getD, List.getElem?_set_eq_of_lt _ hb]
    rfl

/-- Witness for C9: calling a function literal forwards its (absent)
receiver and enters argument staging with the allocated function object. -/
theorem c9_witness :
    evalExpr C0 3 (.call (.literal (.function 0 ⟨0, none, []⟩ []) 1) [] 9) st0
      = evalF C0 2 (.callArgs 0 [] none
          (getFun ⟨[], [], [], [], [.hush 0 ⟨0, none, []⟩ [] [] 1], []⟩ 0) 9)
          ⟨[], [], [], [], [.hush 0 ⟨0, none, []⟩ [] [] 1], []⟩ :=
  (c9_theorem C0 2).2.1 (.literal (.function 0 ⟨0, none, []⟩ []) 1) [] 9 st0 0 1 none
    ⟨[], [], [], [], [.hush 0 ⟨0, none, []⟩ [] [] 1], []⟩ rfl

end Hush
